import Mathlib

/-!
Shallow embedding of the decay-table construction, spectral-function and
resonance-mass-sampling core of the SMASH repository (src/decaymodes.cc,
src/particletype.cc), together with theorems settling the frozen claims.

Machine doubles are modelled as exact rationals; machine ints as ℤ/ℕ.
Functions implemented in translation units that are not part of the given
sources (clebschgordan.cc, decaytype.cc, functions.cc, inputfunctions.cc,
constants.h) enter either as explicit parameters or as definitions marked
"Modelled from the spec:".
-/

namespace Smash

/-- Error taxonomy of table construction (smash::DecayModes and callers):
LoadFailure, InvalidDecay, MissingDecays are distinct exception types in the
source; a plain runtime error also occurs. -/
inductive LoadError where
  | loadFailure (msg : String)
  | invalidDecay (msg : String)
  | missingDecays (msg : String)
  | runtimeError (msg : String)
deriving DecidableEq, Repr

deriving instance DecidableEq for Except

/-- Embeds the two-body overload `min_angular_momentum(s0, s1, s2)`
(decaymodes.cc:138-146): minimum of the three absolute sign combinations,
halved; error when that minimum is odd. -/
def min_angular_momentum3 (s0 s1 s2 : ℤ) : Except String ℤ :=
  let minL := min (min |s0 - s1 - s2| |s0 - s1 + s2|) |s0 + s1 - s2|
  if minL % 2 ≠ 0 then
    .error "min_angular_momentum: sum of spins should be integer"
  else
    .ok (minL / 2)

/-- Embeds the three-body overload `min_angular_momentum(s0, s1, s2, s3)`
(decaymodes.cc:148-161): minimum of the eight absolute sign combinations
(the all-plus combination is its own absolute value, so seven `abs` terms
suffice in the source), halved; error when that minimum is odd. -/
def min_angular_momentum4 (s0 s1 s2 s3 : ℤ) : Except String ℤ :=
  let minL :=
    min (min (min |s0 - s1 + s2 + s3| |s0 + s1 - s2 + s3|)
         (min |s0 + s1 + s2 - s3| |s0 - s1 - s2 + s3|))
        (min (min |s0 - s1 + s2 - s3| |s0 + s1 - s2 - s3|) |s0 - s1 - s2 - s3|)
  if minL % 2 ≠ 0 then
    .error "min_angular_momentum: sum of spins should be integer"
  else
    .ok (minL / 2)

/-- Embeds the angular-momentum bound computation of the three-daughter
multiplet branch of `DecayModes::load_decaymodes` (decaymodes.cc:332-345).
The arguments are the doubled spins of the mother and of the three daughter
multiplets.  Line 343 of the source reads
`const int s3 = isotype_daughter_2.spin();`, so the local `s3` is the spin
of the SECOND daughter, and the spin of the third daughter (`d3spin` here)
is never used. -/
def three_body_bounds_code (s0 d1spin d2spin d3spin : ℤ) : Except String (ℤ × ℤ) :=
  let s1 := d1spin
  let s2 := d2spin
  let s3 := d2spin
  match min_angular_momentum4 s0 s1 s2 s3 with
  | .error e => .error e
  | .ok minL => .ok (minL, (s0 + s1 + s2 + s3) / 2)

/-- The bounds the claim and spec §4.1 prescribe for a three-daughter line:
the same formulas, computed from the ACTUAL spin of the third daughter. -/
def three_body_bounds_claim (s0 d1spin d2spin d3spin : ℤ) : Except String (ℤ × ℤ) :=
  let s1 := d1spin
  let s2 := d2spin
  let s3 := d3spin
  match min_angular_momentum4 s0 s1 s2 s3 with
  | .error e => .error e
  | .ok minL => .ok (minL, (s0 + s1 + s2 + s3) / 2)

/-- Embeds the acceptance test of decaymodes.cc:444: the line is accepted
(no InvalidDecay thrown) exactly when `¬(L < min_L ∨ L > max_L)`. -/
def accepts_L (bounds : ℤ × ℤ) (L : ℤ) : Bool :=
  !(L < bounds.1 || L > bounds.2)

/-- Embeds `DecayModes::add_mode` (decaymodes.cc:29-41) with the resolved
decay type represented by its identity key `K` (types are globally
deduplicated by `get_decay_type`, so pointer identity is key identity): if a
branch with the same type already exists, its weight is increased by `ratio`
and nothing is appended; otherwise a new branch is appended at the end. -/
def add_mode {K : Type} [DecidableEq K] : List (K × ℚ) → K → ℚ → List (K × ℚ)
  | [], ty, ratio => [(ty, ratio)]
  | b :: rest, ty, ratio =>
    if b.1 = ty then (b.1, b.2 + ratio) :: rest
    else b :: add_mode rest ty ratio

/-- Modelled from the spec: the constant `really_small` of constants.h (not
under src/), the "very small epsilon" used to skip renormalization and as
the negligibility threshold for the spectral function; SMASH uses 1e-6. -/
def really_small : ℚ := 1 / 1000000

/-- Embeds `DecayModes::renormalize` (decaymodes.cc:98-120): sum the
weights; if the sum is within `really_small` of 1 leave every weight
untouched and report no large renormalization; otherwise divide every
weight by the sum and report whether the deviation exceeded 1%. -/
def renormalize (weights : List ℚ) : List ℚ × Bool :=
  let sum := weights.foldl (fun a b => a + b) 0
  if |sum - 1| < really_small then
    (weights, false)
  else
    (weights.map (fun w => w / sum), decide (|sum - 1| > 1 / 100))

/-- A decay mode added during multiplet expansion: the mother state, the
accumulated weight `ratio * cg_sqr`, and the concrete daughter states. -/
structure AddedMode (M D : Type) where
  mother : M
  weight : ℚ
  daughters : List D
deriving DecidableEq, Repr

/-- Embeds the two-daughter multiplet branch of `DecayModes::load_decaymodes`
(decaymodes.cc:289-331), with the squared isospin Clebsch-Gordan coefficient
(clebschgordan.cc, not under src/) as a parameter `cg2`: for every mother
state and every pair of daughter states, a mode of weight `ratio * cg_sqr`
is added whenever the coefficient is positive (each such addition clears the
`forbidden_by_isospin` flag, so the flag survives exactly when the list of
added modes is empty); if no combination had a positive coefficient the
line fails with InvalidDecay. -/
def multiplet_line2 {M D : Type} (motherStates : List M) (d1s d2s : List D)
    (cg2 : D → D → M → ℚ) (ratio : ℚ) (errMsg : String) :
    Except LoadError (List (AddedMode M D)) :=
  let modes := motherStates.flatMap (fun ms =>
    d1s.flatMap (fun d1 =>
      d2s.filterMap (fun d2 =>
        let cg_sqr := cg2 d1 d2 ms
        if cg_sqr > 0 then some ⟨ms, ratio * cg_sqr, [d1, d2]⟩ else none)))
  if modes.isEmpty then .error (.invalidDecay errMsg) else .ok modes

/-- Embeds the three-daughter multiplet branch of
`DecayModes::load_decaymodes` (decaymodes.cc:332-369): the same triple loop
over mother and daughter states adding a mode for every positive squared
Clebsch-Gordan coefficient, but with no `forbidden_by_isospin` flag and no
failure path at all: when every coefficient is zero the branch returns
successfully having added nothing. -/
def multiplet_line3 {M D : Type} (motherStates : List M) (d1s d2s d3s : List D)
    (cg3 : D → D → D → M → ℚ) (ratio : ℚ) :
    Except LoadError (List (AddedMode M D)) :=
  .ok (motherStates.flatMap (fun ms =>
    d1s.flatMap (fun d1 =>
      d2s.flatMap (fun d2 =>
        d3s.filterMap (fun d3 =>
          let cg_sqr := cg3 d1 d2 d3 ms
          if cg_sqr > 0 then some ⟨ms, ratio * cg_sqr, [d1, d2, d3]⟩
          else none)))))

/-- Modelled from the spec: `DecayType::threshold()` (decaytype.cc is not
under src/) is "the sum of daughter minimum masses" (§3, §4.3); the mode is
given by the list of its daughters' minimum masses. -/
def threshold (daughterMinMasses : List ℚ) : ℚ := daughterMinMasses.sum

/-- A particle record as seen by the final Manley-Saleski pass: name, pole
mass, stability flag, and the installed decay modes, each recorded by its
daughters' minimum masses. -/
structure MotherRec where
  name : String
  mass : ℚ
  stable : Bool
  modes : List (List ℚ)
deriving DecidableEq, Repr

/-- Embeds the global consistency pass at the end of
`DecayModes::load_decaymodes` (decaymodes.cc:456-481): for every particle
in the list, skip it if stable, otherwise throw InvalidDecay at the first
decay mode whose threshold is at least the mother's pole mass. -/
def manley_saleski_pass : List MotherRec → Except LoadError Unit
  | [] => .ok ()
  | mo :: rest =>
    if mo.stable then manley_saleski_pass rest
    else
      match mo.modes.find? (fun ds => mo.mass ≤ threshold ds) with
      | some _ =>
        .error (.invalidDecay
          ("For all decays, the minimum mass of daughters" ++
           "must be smaller\nthan the mother's pole mass " ++
           "(Manley-Saleski Ansatz)\n" ++
           "Violated by the following decay: " ++ mo.name))
      | none => manley_saleski_pass rest

/-- A decay type's identity as the spec defines it (§3: "immutable value
identified by (ordered daughter-species set, orbital angular momentum L)",
globally deduplicated, so value identity is pointer identity). -/
structure DecayKey (P : Type) where
  daughters : List P
  L : ℤ
deriving DecidableEq, Repr

/-- Embeds the daughter substitution of the anti-multiplet mirroring
(decaymodes.cc:211-215): a daughter with an antiparticle is replaced by it,
one without is left unchanged. -/
def conj_daughter {P : Type} (hasAnti : P → Bool) (anti : P → P) (d : P) : P :=
  if hasAnti d then anti d else d

/-- The image of a decay type's key under daughter conjugation (the mirrored
mode is re-added with the same angular momentum). -/
def conj_key {P : Type} (hasAnti : P → Bool) (anti : P → P) (k : DecayKey P) :
    DecayKey P :=
  ⟨k.daughters.map (conj_daughter hasAnti anti), k.L⟩

/-- Embeds the anti-multiplet mirroring loop of `DecayModes::load_decaymodes`
(decaymodes.cc:199-220) for one mother state: starting from the anti-state's
table (empty at this point), every installed mode of the original state is
re-added via `add_mode` with conjugated daughters, identical weight and
identical angular momentum. -/
def mirror_table {P : Type} [DecidableEq P] (hasAnti : P → Bool) (anti : P → P)
    (orig : List (DecayKey P × ℚ)) : List (DecayKey P × ℚ) :=
  orig.foldl (fun acc mode => add_mode acc (conj_key hasAnti anti mode.1) mode.2) []

/-- Modelled from the spec: the constant `ParticleType::width_cutoff`
(declared in particletype.h, not under src/), the "fixed numerical cutoff"
below which a width "is floored to exactly zero" (§4.4); SMASH uses 1e-5. -/
def width_cutoff : ℚ := 1 / 100000

/-- One decay branch as the width machinery sees it: the mode's threshold
and the mass-dependent partial width above threshold.  `widthFn m` stands
for `mode->type().width(mass(), width_at_pole() * mode->weight(), m)`
(decaytype.cc is not under src/; per the spec §4.4 it "scales the pole
partial width by a type-specific mass-dependence function"). -/
structure WidthBranch where
  thr : ℚ
  widthFn : ℚ → ℚ

/-- A species as the spectral-function engine sees it: pole mass, stability
flag, decay branches, and the normalization factor `norm_factor_`
(computed once by the numerical `Integrator` over the reparametrized
integral, neither of which is under src/; it is the reciprocal of the
integral of a non-negative function, hence a non-negative parameter). -/
structure SpectralSpecies where
  mass : ℚ
  stable : Bool
  branches : List WidthBranch
  normFactor : ℚ

/-- Embeds `ParticleType::partial_width` (particletype.cc:424-431): zero
below the mode's threshold, otherwise the type-specific width. -/
def branch_width (b : WidthBranch) (m : ℚ) : ℚ :=
  if m < b.thr then 0 else b.widthFn m

/-- Embeds `ParticleType::total_width` (particletype.cc:440-454): zero for
stable species; otherwise the sum of the branch widths, floored to exactly
zero when it is below `width_cutoff`. -/
def total_width (sp : SpectralSpecies) (m : ℚ) : ℚ :=
  if sp.stable then 0
  else
    let w := (sp.branches.map (fun b => branch_width b m)).sum
    if w < width_cutoff then 0 else w

/-- Modelled from the spec: the relativistic Breit-Wigner line shape with
mass-dependent width (functions.cc is not under src/); the overall positive
constant 2/π is dropped, which changes no sign, zero or ordering fact used
below. -/
def breit_wigner (m M gamma : ℚ) : ℚ :=
  m ^ 2 * gamma / ((m ^ 2 - M ^ 2) ^ 2 + m ^ 2 * gamma ^ 2)

/-- Embeds `ParticleType::spectral_function_no_norm` (particletype.cc:
590-598): zero when the mass-dependent width is below `width_cutoff`,
otherwise the Breit-Wigner value at that width. -/
def spectral_function_no_norm (sp : SpectralSpecies) (m : ℚ) : ℚ :=
  let resonance_width := total_width sp m
  if resonance_width < width_cutoff then 0
  else breit_wigner m sp.mass resonance_width

/-- Embeds `ParticleType::spectral_function` (particletype.cc:570-588): the
unnormalized spectral function times the cached normalization factor. -/
def spectral_function (sp : SpectralSpecies) (m : ℚ) : ℚ :=
  sp.normFactor * spectral_function_no_norm sp m

/-- Embeds `ParticleType::min_mass_kinematic` (particletype.cc:365-377):
the pole mass, lowered to the smallest decay-mode threshold when the
species is unstable. -/
def min_mass_kinematic (sp : SpectralSpecies) : ℚ :=
  if sp.stable then sp.mass
  else sp.branches.foldl (fun acc b => min acc b.thr) sp.mass

/-- The fixed outward step of the bracketing loop in
`ParticleType::min_mass_spectral` (particletype.cc:390). -/
def m_step : ℚ := 1 / 100

/-- The fixed absolute precision of the bisection in
`ParticleType::min_mass_spectral` (particletype.cc:399). -/
def bisection_precision : ℚ := 1 / 1000000

/-- Embeds the bracketing loop of `ParticleType::min_mass_spectral`
(particletype.cc:391-397): step outward from `min_mass_kinematic` in steps
of `m_step` until the spectral function exceeds `really_small`; the source
loop is unbounded, so the embedding carries fuel and returns `none` when it
runs out. -/
def bracket_right (sp : SpectralSpecies) : ℤ → ℕ → Option ℚ
  | _, 0 => none
  | i, fuel + 1 =>
    let right_bound_bis := min_mass_kinematic sp + m_step * i
    if spectral_function sp right_bound_bis > really_small then
      some right_bound_bis
    else bracket_right sp (i + 1) fuel

/-- Embeds the bisection loop of `ParticleType::min_mass_spectral`
(particletype.cc:398-409): while the bracket is wider than the precision,
probe the midpoint and keep the half whose right end still has
non-negligible spectral function; fuel-indexed, returning the right bound
when the loop exits (or when fuel runs out). -/
def bisect (sp : SpectralSpecies) : ℚ → ℚ → ℕ → ℚ
  | _, hi, 0 => hi
  | lo, hi, fuel + 1 =>
    if hi - lo > bisection_precision then
      let mid := (lo + hi) / 2
      if spectral_function sp mid > really_small then bisect sp lo mid fuel
      else bisect sp mid hi fuel
    else hi

/-- Embeds `ParticleType::min_mass_spectral` (particletype.cc:379-413):
`min_mass_kinematic`, unless the species is unstable and the spectral
function there is below `really_small`, in which case the bracketing plus
bisection result is produced. -/
def min_mass_spectral (sp : SpectralSpecies) (fuel : ℕ) : Option ℚ :=
  if !sp.stable &&
      spectral_function sp (min_mass_kinematic sp) < really_small then
    match bracket_right sp 0 fuel with
    | none => none
    | some right_bound_bis =>
      some (bisect sp (right_bound_bis - m_step) right_bound_bis fuel)
  else some (min_mass_kinematic sp)

/-- Embeds the rejection-sampling loops shared by
`ParticleType::sample_resonance_mass` (particletype.cc:637-668, where the
envelope is `max = blw_max * sf_ratio_max * max_factor1_`) and
`ParticleType::sample_resonance_masses` (particletype.cc:686-718, where it
is `max = blw_max * max_factor2_`): `envBase` is the per-call constant
factor in front of the persistent scale factor, `val` maps a proposal
(`α` is one mass, or a pair of masses) to its accepted unnormalized value
`q * blw` (resp. `q1 * q2 * blw`; pCM, blatt_weisskopf_sqr and the spectral
ratios are folded into `val`), and each draw supplies the Cauchy proposal
together with the `random::uniform(0., max)` draw expressed as the fraction
`u` of `max`.  The inner loop rejects while `val < u * max`; the outer loop
multiplies the scale factor by the overshoot ratio `val / max` and restarts
whenever the accepted value exceeds the envelope, and otherwise returns the
proposal together with the final scale factor.  The inner rejection loop,
consuming draws while `val < u * max`: -/
def inner_sampling_loop {α : Type} (val : α → ℚ) (mx : ℚ) :
    List (α × ℚ) → Option (α × List (α × ℚ))
  | [] => none
  | d :: ds =>
    if val d.1 < d.2 * mx then inner_sampling_loop val mx ds
    else some (d.1, ds)

/-- The outer loop of the rejection sampler; see `inner_sampling_loop` for
the setting: restart with the rescaled factor on overshoot, otherwise
return the accepted proposal and the factor in force. -/
def sample_loop {α : Type} (val : α → ℚ) (envBase : ℚ) :
    ℕ → ℚ → List (α × ℚ) → Option (α × ℚ)
  | 0, _, _ => none
  | fuel + 1, factor, draws =>
    let mx := envBase * factor
    match inner_sampling_loop val mx draws with
    | none => none
    | some (m, rest) =>
      if val m > mx then sample_loop val envBase fuel (factor * (val m / mx)) rest
      else some (m, factor)

/-- The persistent scale factor across a sequence of sampling calls: each
call is given its fuel and its stream of draws, and a call that returns
updates the factor (a call that runs out of fuel leaves it unchanged). -/
def run_sampling_calls {α : Type} (val : α → ℚ) (envBase : ℚ)
    (inputs : List (ℕ × List (α × ℚ))) (factor : ℚ) : ℚ :=
  inputs.foldl
    (fun f inp =>
      match sample_loop val envBase inp.1 f inp.2 with
      | some (_, fNew) => fNew
      | none => f)
    factor

/-- Embeds `struct Line` (inputfunctions.h:23-32): a line number paired
with the line's contents. -/
structure Line where
  number : ℤ
  text : String
deriving DecidableEq, Repr

/-- Modelled from the spec: comment removal of `line_parser` — everything
from the first '#' on is dropped. -/
def drop_comment : List Char → List Char
  | [] => []
  | c :: cs => if c = '#' then [] else c :: drop_comment cs

/-- A line that is empty (or whitespace only) after comment removal is
skipped by `line_parser`. -/
def is_blank (cs : List Char) : Bool :=
  cs.all (fun c => c = ' ' || c = '\t' || c = '\n' || c = '\r')

/-- Modelled from the spec: `line_parser` (declared in inputfunctions.h:56,
implemented in inputfunctions.cc which is not under src/) "goes through an
input stream line by line and removes comments and empty lines. The
remaining lines will be returned as a vector of strings and linenumber
pairs (Line)"; line numbers are 1-based positions in the original input
(§6 requires errors to report "the offending line's 1-based number"). -/
def parse_input_lines (input : List String) : List Line :=
  ((List.range input.length).zip input).filterMap (fun p =>
    let cs := drop_comment p.2.data
    if is_blank cs then none else some ⟨(p.1 : ℤ) + 1, String.mk cs⟩)

/-- Embeds the `linenumber` counter of `DecayModes::load_decaymodes`
(decaymodes.cc:225 and 453): initialized to 1 and incremented once per line
delivered by the parser — the FIXME at decaymodes.cc:224 records that "At
the moment this does not include comments and empty lines".  Pairs every
parsed line with the counter value in force while it is processed. -/
def reported_linenumbers : ℤ → List Line → List (Line × ℤ)
  | _, [] => []
  | n, l :: ls => (l, n) :: reported_linenumbers (n + 1) ls

/-- Embeds the charge-conservation error text of decaymodes.cc:423-428,
which interpolates the `linenumber` counter, not `Line.number`. -/
def charge_violation_message (motherName : String) (linenumber : ℤ)
    (trimmed : String) : String :=
  motherName ++ " decay mode violates charge conservation " ++ "(line " ++
    toString linenumber ++ ": \x22" ++ trimmed ++ "\x22)"

/-- Embeds the isospin-forbidden error text of decaymodes.cc:321-329: the
mother's name, the line's text and the isospins involved — no line number
of any kind is interpolated. -/
def isospin_forbidden_message (motherName : String) (lineText : String)
    (isospins : String) : String :=
  motherName ++ " decay mode is forbidden by isospin: \x22" ++ lineText ++
    "\x22" ++ isospins

/-- Embeds the head of the data-line branch of
`DecayModes::load_decaymodes` (decaymodes.cc:247-260): after `ratio` and
`L` are extracted, a negative `L` raises LoadFailure naming the invalid
angular momentum (this single message interpolates `Line.number`) before
anything else on the line is looked at; `restOfLine` stands for the whole
remaining processing of the line (daughter resolution at 262-280 onward),
which is reached only when `L ≥ 0`. -/
def process_data_line {α : Type} (L : ℤ) (line : Line)
    (restOfLine : Except LoadError α) : Except LoadError α :=
  if L < 0 then
    .error (.loadFailure
      ("Invalid angular momentum '" ++ toString L ++
       "' in decaymodes.txt:" ++ toString line.number ++ ": '" ++
       line.text ++ "'"))
  else restOfLine

/-- The concrete species used to refute the claim that the spectral
function vanishes everywhere below `min_mass_spectral`: pole mass 3, one
branch with threshold 1 whose width rises linearly from exactly
`width_cutoff` at threshold, and normalization factor 1. -/
def sp0 : SpectralSpecies where
  mass := 3
  stable := false
  branches := [⟨1, fun m => width_cutoff * (1 + 1000 * (m - 1))⟩]
  normFactor := 1

theorem add_mode_of_not_mem {K : Type} [DecidableEq K] (table : List (K × ℚ))
    (ty : K) (r : ℚ) (h : ty ∉ table.map Prod.fst) :
    add_mode table ty r = table ++ [(ty, r)] := by
  induction table with
  | nil => rfl
  | cons b rest ih =>
    simp only [List.map_cons, List.mem_cons, not_or] at h
    simp only [add_mode, if_neg (Ne.symm h.1), List.cons_append, ih h.2]

theorem add_mode_keys_of_mem {K : Type} [DecidableEq K] (table : List (K × ℚ))
    (ty : K) (r : ℚ) (h : ty ∈ table.map Prod.fst) :
    (add_mode table ty r).map Prod.fst = table.map Prod.fst := by
  induction table with
  | nil => simp at h
  | cons b rest ih =>
    by_cases hb : b.1 = ty
    · simp [add_mode, hb]
    · simp only [List.map_cons, List.mem_cons, hb] at h
      have h' : ty ∈ rest.map Prod.fst := by
        rcases h with h | h
        · exact absurd h.symm hb
        · exact h
      simp [add_mode, hb, ih h']

theorem add_mode_keys_nodup {K : Type} [DecidableEq K] (table : List (K × ℚ))
    (ty : K) (r : ℚ) (h : (table.map Prod.fst).Nodup) :
    ((add_mode table ty r).map Prod.fst).Nodup := by
  by_cases hm : ty ∈ table.map Prod.fst
  · rw [add_mode_keys_of_mem table ty r hm]; exact h
  · rw [add_mode_of_not_mem table ty r hm]
    simp only [List.map_append, List.map_cons, List.map_nil]
    refine List.Nodup.append h (List.nodup_singleton ty) ?_
    intro x hx hy
    rw [List.mem_singleton] at hy
    subst hy
    exact hm hx

theorem add_mode_weight_mem {K : Type} [DecidableEq K] (table : List (K × ℚ))
    (ty : K) (w r : ℚ) (hnd : (table.map Prod.fst).Nodup) (h : (ty, w) ∈ table) :
    (ty, w + r) ∈ add_mode table ty r := by
  induction table with
  | nil => simp at h
  | cons b rest ih =>
    simp only [List.map_cons, List.nodup_cons] at hnd
    rcases List.mem_cons.1 h with h | h
    · subst h
      simp [add_mode]
    · have hb : b.1 ≠ ty := by
        intro he
        exact hnd.1 (he ▸ (List.mem_map.2 ⟨(ty, w), h, rfl⟩))
      simp only [add_mode, if_neg hb]
      exact List.mem_cons.2 (Or.inr (ih hnd.2 h))

theorem foldl_add_mode_nodup {K : Type} [DecidableEq K]
    (calls : List (K × ℚ)) (init : List (K × ℚ))
    (h : (init.map Prod.fst).Nodup) :
    ((calls.foldl (fun t c => add_mode t c.1 c.2) init).map Prod.fst).Nodup := by
  induction calls generalizing init with
  | nil => exact h
  | cons c rest ih =>
    exact ih (add_mode init c.1 c.2) (add_mode_keys_nodup init c.1 c.2 h)

/-- C1: on a three-daughter multiplet line the source computes the
angular-momentum window from the spins (s0, s1, s2, s2) — decaymodes.cc:343
reads the SECOND daughter's spin into `s3` — rather than from the actual
spins (s0, s1, s2, s3).  For doubled spins s0 = s1 = s2 = 0, s3 = 2 (third
daughter a vector multiplet) the code's window is [0, 0] while the window
from the actual spins is [1, 1], so the code accepts L = 0, which the claim
requires it to reject, and rejects L = 1, which the claim requires it to
accept. -/
theorem C1_three_daughter_spin_bounds_bug :
    three_body_bounds_code 0 0 0 2 = .ok (0, 0) ∧
    three_body_bounds_claim 0 0 0 2 = .ok (1, 1) ∧
    accepts_L (0, 0) 0 = true ∧ accepts_L (1, 1) 0 = false ∧
    accepts_L (0, 0) 1 = false ∧ accepts_L (1, 1) 1 = true := by
  decide

/-- C9: `DecayModes::add_mode` merges a mode whose resolved decay type is
already present (same identity key): the key list is unchanged (nothing is
appended) and the matching branch's weight grows by the given ratio; and
along any sequence of `add_mode` calls on an initially empty table the
decay-type keys stay duplicate-free, so a table holds at most one branch
per decay type. -/
theorem C9_add_mode_accumulates {K : Type} [DecidableEq K] :
    (∀ (table : List (K × ℚ)) (ty : K) (r : ℚ), ty ∈ table.map Prod.fst →
        (add_mode table ty r).map Prod.fst = table.map Prod.fst) ∧
    (∀ (table : List (K × ℚ)) (ty : K) (w r : ℚ),
        (table.map Prod.fst).Nodup → (ty, w) ∈ table →
        (ty, w + r) ∈ add_mode table ty r) ∧
    (∀ calls : List (K × ℚ),
        ((calls.foldl (fun t c => add_mode t c.1 c.2) []).map Prod.fst).Nodup) :=
  ⟨add_mode_keys_of_mem, add_mode_weight_mem,
   fun calls => foldl_add_mode_nodup calls [] (by simp)⟩

theorem C9_witness :
    (add_mode [((0 : ℕ), (1 : ℚ)), (1, 2)] 0 (1 / 2)).map Prod.fst = [0, 1] ∧
    ((0 : ℕ), (3 : ℚ) / 2) ∈ add_mode [((0 : ℕ), (1 : ℚ)), (1, 2)] 0 (1 / 2) ∧
    (([((0 : ℕ), (1 : ℚ)), (0, 2), (1, 5)].foldl
        (fun t c => add_mode t c.1 c.2) []).map Prod.fst).Nodup := by
  refine ⟨?_, ?_, (C9_add_mode_accumulates (K := ℕ)).2.2 _⟩
  · have h := (C9_add_mode_accumulates (K := ℕ)).1
      [((0 : ℕ), (1 : ℚ)), (1, 2)] 0 (1 / 2) (by simp)
    simpa using h
  · have h := (C9_add_mode_accumulates (K := ℕ)).2.1
      [((0 : ℕ), (1 : ℚ)), (1, 2)] 0 1 (1 / 2) (by simp) (by simp)
    have he : (1 : ℚ) + 1 / 2 = 3 / 2 := by norm_num
    rwa [he] at h

/-- C10: as soon as the parsed angular momentum of a data line is negative,
`load_decaymodes` fails with the LoadFailure naming the invalid angular
momentum (decaymodes.cc:256-260), whatever the rest of the line's
processing — daughter resolution and every conservation-law check — would
have produced. -/
theorem C10_negative_L_fails_early {α : Type} (L : ℤ) (hL : L < 0)
    (line : Line) (restOfLine : Except LoadError α) :
    process_data_line L line restOfLine =
      .error (.loadFailure ("Invalid angular momentum '" ++ toString L ++
        "' in decaymodes.txt:" ++ toString line.number ++ ": '" ++
        line.text ++ "'")) := by
  unfold process_data_line
  rw [if_pos hL]

theorem C10_witness :
    (-1 : ℤ) < 0 ∧
    process_data_line (-1) ⟨3, "0.33 -1 K M"⟩
        (Except.error (α := Unit) (.invalidDecay "daughter K unresolvable")) =
      .error (.loadFailure
        "Invalid angular momentum '-1' in decaymodes.txt:3: '0.33 -1 K M'") :=
  ⟨by decide,
   (C10_negative_L_fails_early (α := Unit) (-1) (by decide) ⟨3, "0.33 -1 K M"⟩
     (.error (.invalidDecay "daughter K unresolvable"))).trans (by rfl)⟩

theorem foldl_add_eq_sum (l : List ℚ) :
    ∀ a : ℚ, l.foldl (fun x y => x + y) a = a + l.sum := by
  induction l with
  | nil => intro a; simp
  | cons x xs ih => intro a; simp [ih, add_assoc]

theorem sum_map_div (l : List ℚ) (s : ℚ) :
    (l.map (fun w => w / s)).sum = l.sum / s := by
  induction l with
  | nil => simp
  | cons x xs ih => simp [ih, add_div]

/-- C4: `DecayModes::renormalize` leaves every weight exactly untouched
(and raises no large-renormalization flag) when the pre-renormalization sum
is within `really_small` of 1; otherwise it rescales the weights so that
they sum exactly to 1 (idealized arithmetic; the sum is nonzero for any
really constructed table since every added weight is positive); and in
every case the large-renormalization flag is raised exactly when the
pre-renormalization sum deviates from 1 by more than 1%. -/
theorem C4_renormalization (weights : List ℚ) (hsum : weights.sum ≠ 0) :
    ((|weights.sum - 1| < really_small) →
        renormalize weights = (weights, false)) ∧
    (¬(|weights.sum - 1| < really_small) →
        (renormalize weights).1.sum = 1) ∧
    ((renormalize weights).2 = true ↔ |weights.sum - 1| > 1 / 100) := by
  have hs : weights.foldl (fun x y => x + y) 0 = weights.sum := by
    rw [foldl_add_eq_sum, zero_add]
  by_cases h : |weights.sum - 1| < really_small
  · have hr : renormalize weights = (weights, false) := by
      simp only [renormalize, hs, if_pos h]
    refine ⟨fun _ => hr, fun hc => absurd h hc, ?_⟩
    rw [hr]
    simp only [Bool.false_eq_true, false_iff, not_lt]
    have : |weights.sum - 1| < 1 / 100 :=
      lt_of_lt_of_le h (by norm_num [really_small])
    exact le_of_lt this
  · have hr : renormalize weights =
        (weights.map (fun w => w / weights.sum),
         decide (|weights.sum - 1| > 1 / 100)) := by
      simp only [renormalize, hs, if_neg h]
    refine ⟨fun hc => absurd hc h, fun _ => ?_, ?_⟩
    · rw [hr]
      simp [sum_map_div, div_self hsum]
    · rw [hr]
      simp

theorem C4_witness :
    ([(1 : ℚ) / 2, 1 / 4].sum ≠ 0) ∧
    ¬(|([(1 : ℚ) / 2, 1 / 4]).sum - 1| < really_small) ∧
    (renormalize [(1 : ℚ) / 2, 1 / 4]).1.sum = 1 ∧
    ((renormalize [(1 : ℚ) / 2, 1 / 4]).2 = true ↔
      |([(1 : ℚ) / 2, 1 / 4]).sum - 1| > 1 / 100) := by
  have h := C4_renormalization [(1 : ℚ) / 2, 1 / 4] (by norm_num)
  exact ⟨by norm_num,
         by norm_num [really_small, abs],
         h.2.1 (by norm_num [really_small, abs]),
         h.2.2⟩

/-- C5: the global Manley-Saleski pass at the end of `load_decaymodes`
succeeds exactly when, for every unstable species, the pole mass strictly
exceeds the threshold of every one of its installed decay modes; any
violation turns into an InvalidDecay error, so a load that returns without
throwing guarantees the strict inequality everywhere. -/
theorem C5_manley_saleski (particles : List MotherRec) :
    manley_saleski_pass particles = .ok () ↔
      ∀ mo ∈ particles, mo.stable = false →
        ∀ ds ∈ mo.modes, threshold ds < mo.mass := by
  induction particles with
  | nil => simp [manley_saleski_pass]
  | cons mo rest ih =>
    by_cases hst : mo.stable
    · simp [manley_saleski_pass, hst, ih]
    · have hst' : mo.stable = false := by simpa using hst
      cases hfind : mo.modes.find? (fun ds => mo.mass ≤ threshold ds) with
      | some ds =>
        have hmem := List.mem_of_find?_eq_some hfind
        have hle : mo.mass ≤ threshold ds := by
          simpa using List.find?_some hfind
        simp only [manley_saleski_pass, hst', Bool.false_eq_true, if_false,
          hfind]
        constructor
        · intro h; exact Except.noConfusion h
        · intro h
          have := (h mo (List.mem_cons_self mo rest)) hst' ds hmem
          exact absurd this (not_lt.2 hle)
      | none =>
        have hall : ∀ ds ∈ mo.modes, threshold ds < mo.mass := by
          intro ds hds
          have hnd := List.find?_eq_none.1 hfind ds hds
          have : ¬ mo.mass ≤ threshold ds := by simpa using hnd
          exact lt_of_not_le this
        simp only [manley_saleski_pass, hst', Bool.false_eq_true, if_false,
          hfind, ih, List.mem_cons]
        constructor
        · rintro h x (rfl | hx)
          · intro _; exact hall
          · exact h x hx
        · intro h x hx
          exact h x (Or.inr hx)

theorem C5_witness :
    manley_saleski_pass
        [⟨"pi", 1, true, []⟩, ⟨"Delta", 5, false, [[1, 2], [3]]⟩] = .ok () ∧
    ∀ mo ∈ [MotherRec.mk "pi" 1 true [],
            MotherRec.mk "Delta" 5 false [[1, 2], [3]]],
      mo.stable = false → ∀ ds ∈ mo.modes, threshold ds < mo.mass := by
  refine ⟨?_, ?_⟩
  · exact (C5_manley_saleski _).2 (by
      intro mo hmo hst ds hds
      fin_cases hmo <;> simp_all [threshold] <;> rcases hds with rfl | rfl <;>
        norm_num)
  · intro mo hmo hst ds hds
    fin_cases hmo <;> simp_all [threshold] <;> rcases hds with rfl | rfl <;>
      norm_num

/-- C2 counterexample: a three-daughter multiplet line on which every
combination of mother and daughter states has a vanishing squared
Clebsch-Gordan coefficient is processed successfully and silently adds no
modes — the isospin-forbidden failure the claim requires does not occur
(there is no `forbidden_by_isospin` flag in the three-daughter branch,
decaymodes.cc:346-369). -/
theorem C2_counterexample :
    multiplet_line3 [(0 : ℕ)] [(0 : ℕ)] [0] [0] (fun _ _ _ _ => 0) 1 =
      .ok [] := by
  decide

/-- C2 (amended): on a TWO-daughter multiplet line whose squared
Clebsch-Gordan coefficients all vanish, processing fails with the
isospin-forbidden InvalidDecay; on a THREE-daughter multiplet line in the
same situation processing succeeds and adds no modes. -/
theorem C2_isospin_forbidden (M D : Type) (motherStates : List M)
    (d1s d2s d3s : List D) (cg2 : D → D → M → ℚ) (cg3 : D → D → D → M → ℚ)
    (ratio : ℚ) (errMsg : String)
    (h2 : ∀ d1 d2 ms, cg2 d1 d2 ms = 0)
    (h3 : ∀ d1 d2 d3 ms, cg3 d1 d2 d3 ms = 0) :
    multiplet_line2 motherStates d1s d2s cg2 ratio errMsg =
      .error (.invalidDecay errMsg) ∧
    multiplet_line3 motherStates d1s d2s d3s cg3 ratio = .ok [] := by
  constructor
  · simp [multiplet_line2, h2]
  · simp [multiplet_line3, h3]

theorem C2_witness :
    multiplet_line2 [(0 : ℕ)] [(0 : ℕ)] [0] (fun _ _ _ => 0) 1 "forbidden" =
      .error (.invalidDecay "forbidden") ∧
    multiplet_line3 [(0 : ℕ)] [(0 : ℕ)] [0] [0] (fun _ _ _ _ => 0) 1 =
      .ok [] :=
  C2_isospin_forbidden ℕ ℕ [0] [0] [0] [0] (fun _ _ _ => 0) (fun _ _ _ _ => 0)
    1 "forbidden" (fun _ _ _ => rfl) (fun _ _ _ _ => rfl)

/-- C8: the line number interpolated into the decay-mode error messages is
the `linenumber` counter, which counts only the lines that survive comment
and blank removal (FIXME, decaymodes.cc:224): on an input whose first line
is a comment, the offending second line is parsed with its true 1-based
number 2, but the counter in force while it is processed — and hence the
number in, e.g., the charge-conservation message — is 1.  The
isospin-forbidden message interpolates no number at all. -/
theorem C8_linenumber_bug :
    parse_input_lines ["# decay modes of the nucleon", "0.5 1 pi pi"] =
      [⟨2, "0.5 1 pi pi"⟩] ∧
    reported_linenumbers 1
        (parse_input_lines ["# decay modes of the nucleon", "0.5 1 pi pi"]) =
      [(⟨2, "0.5 1 pi pi"⟩, 1)] ∧
    charge_violation_message "N" 1 "0.5 1 pi pi" =
      "N decay mode violates charge conservation (line 1: \x220.5 1 pi pi\x22)" ∧
    isospin_forbidden_message "N" "0.5 1 pi pi" ",\nwhere isospin mother: 1" =
      "N decay mode is forbidden by isospin: \x220.5 1 pi pi\x22,\nwhere isospin mother: 1" ∧
    (1 : ℤ) ≠ 2 := by
  refine ⟨?_, ?_, rfl, rfl, by decide⟩
  · rfl
  · rfl

theorem conj_daughter_injective {P : Type} (hasAnti : P → Bool) (anti : P → P)
    (hinv : ∀ d, hasAnti d = true → hasAnti (anti d) = true ∧ anti (anti d) = d) :
    Function.Injective (conj_daughter hasAnti anti) := by
  intro a b hab
  unfold conj_daughter at hab
  by_cases ha : hasAnti a = true
  · by_cases hb : hasAnti b = true
    · rw [if_pos ha, if_pos hb] at hab
      have h2 := congrArg anti hab
      rwa [(hinv a ha).2, (hinv b hb).2] at h2
    · rw [if_pos ha, if_neg hb] at hab
      exact absurd (hab ▸ (hinv a ha).1) hb
  · by_cases hb : hasAnti b = true
    · rw [if_neg ha, if_pos hb] at hab
      exact absurd (hab ▸ (hinv b hb).1) ha
    · rwa [if_neg ha, if_neg hb] at hab

theorem conj_key_injective {P : Type} (hasAnti : P → Bool) (anti : P → P)
    (hinv : ∀ d, hasAnti d = true → hasAnti (anti d) = true ∧ anti (anti d) = d) :
    Function.Injective (conj_key hasAnti anti) := by
  intro k1 k2 h
  cases k1 with
  | mk d1 L1 =>
  cases k2 with
  | mk d2 L2 =>
  simp only [conj_key, DecayKey.mk.injEq] at h ⊢
  exact ⟨List.map_injective_iff.2
    (conj_daughter_injective hasAnti anti hinv) h.1, h.2⟩

theorem mirror_foldl_aux {P : Type} [DecidableEq P] (hasAnti : P → Bool)
    (anti : P → P)
    (hinj : Function.Injective (conj_key hasAnti anti))
    (rem : List (DecayKey P × ℚ)) :
    ∀ processed acc,
      acc = processed.map (fun b => (conj_key hasAnti anti b.1, b.2)) →
      ((processed ++ rem).map Prod.fst).Nodup →
      rem.foldl (fun t mode => add_mode t (conj_key hasAnti anti mode.1) mode.2)
          acc =
        (processed ++ rem).map (fun b => (conj_key hasAnti anti b.1, b.2)) := by
  induction rem with
  | nil =>
    intro processed acc hacc _
    simpa using hacc
  | cons mode rest ih =>
    intro processed acc hacc hnd
    have hnotmem : conj_key hasAnti anti mode.1 ∉ acc.map Prod.fst := by
      rw [hacc]
      intro hmem
      rw [List.map_map] at hmem
      rcases List.mem_map.1 hmem with ⟨b, hb, hkey⟩
      have hkeq : b.1 = mode.1 := hinj hkey
      have h1 : mode.1 ∈ processed.map Prod.fst :=
        hkeq ▸ List.mem_map.2 ⟨b, hb, rfl⟩
      have h2 : mode.1 ∈ (mode :: rest).map Prod.fst := by simp
      have hdisj := (List.nodup_append.1 (by simpa using hnd)).2.2
      exact hdisj h1 h2
    have hstep :
        add_mode acc (conj_key hasAnti anti mode.1) mode.2 =
          (processed ++ [mode]).map (fun b => (conj_key hasAnti anti b.1, b.2)) := by
      rw [add_mode_of_not_mem acc _ _ hnotmem, hacc, List.map_append]
      rfl
    have hnd' : (((processed ++ [mode]) ++ rest).map Prod.fst).Nodup := by
      simpa using hnd
    have := ih (processed ++ [mode])
      (add_mode acc (conj_key hasAnti anti mode.1) mode.2) hstep hnd'
    simpa using this

/-- C6: the anti-multiplet mirroring re-adds, into the initially empty
table of the anti-state, one branch per branch of the original state's
installed table, in order, with identical weight, identical angular
momentum, and the daughter list conjugated daughter-by-daughter (a daughter
with an antiparticle replaced by it, one without left unchanged); the
correspondence is one-to-one because the original table holds distinct
decay types and conjugation is injective for an involutive antiparticle
map. -/
theorem C6_anti_multiplet_mirroring {P : Type} [DecidableEq P]
    (hasAnti : P → Bool) (anti : P → P) (orig : List (DecayKey P × ℚ))
    (hinv : ∀ d, hasAnti d = true → hasAnti (anti d) = true ∧ anti (anti d) = d)
    (hnodup : (orig.map Prod.fst).Nodup) :
    mirror_table hasAnti anti orig =
      orig.map (fun b => (conj_key hasAnti anti b.1, b.2)) := by
  have h := mirror_foldl_aux hasAnti anti
    (conj_key_injective hasAnti anti hinv) orig [] [] rfl (by simpa using hnodup)
  simpa [mirror_table] using h

theorem C6_witness :
    mirror_table (fun d : Fin 3 => decide (d ≠ 0))
        (fun d => if d = 1 then 2 else if d = 2 then 1 else d)
        [(⟨[1, 0], 1⟩, 1 / 2), (⟨[2], 0⟩, 1 / 2)] =
      [(⟨[2, 0], 1⟩, 1 / 2), (⟨[1], 0⟩, 1 / 2)] := by
  have h := C6_anti_multiplet_mirroring (fun d : Fin 3 => decide (d ≠ 0))
    (fun d => if d = 1 then 2 else if d = 2 then 1 else d)
    [(⟨[1, 0], 1⟩, 1 / 2), (⟨[2], 0⟩, 1 / 2)]
    (by decide) (by decide)
  rw [h]
  rfl

theorem sample_loop_spec {α : Type} (val : α → ℚ) (envBase : ℚ)
    (hB : 0 < envBase) :
    ∀ (fuel : ℕ) (factor : ℚ), 0 < factor →
      ∀ (draws : List (α × ℚ)) (m : α) (fFinal : ℚ),
        sample_loop val envBase fuel factor draws = some (m, fFinal) →
        factor ≤ fFinal ∧ 0 < fFinal ∧ val m ≤ envBase * fFinal := by
  intro fuel
  induction fuel with
  | zero =>
    intro factor _ draws m fFinal h
    exact Option.noConfusion h
  | succ n ih =>
    intro factor hf draws m fFinal h
    rw [sample_loop] at h
    cases hin : inner_sampling_loop val (envBase * factor) draws with
    | none => rw [hin] at h; exact Option.noConfusion h
    | some p =>
      rw [hin] at h
      obtain ⟨mAcc, rest⟩ := p
      dsimp only at h
      by_cases hv : val mAcc > envBase * factor
      · rw [if_pos hv] at h
        have hmx : 0 < envBase * factor := mul_pos hB hf
        have hratio : 1 < val mAcc / (envBase * factor) :=
          (one_lt_div hmx).2 hv
        have hfn : 0 < factor * (val mAcc / (envBase * factor)) :=
          mul_pos hf (lt_trans one_pos hratio)
        have hrec := ih _ hfn _ _ _ h
        refine ⟨le_trans ?_ hrec.1, hrec.2.1, hrec.2.2⟩
        exact le_of_lt (lt_mul_of_one_lt_right hf hratio)
      · rw [if_neg hv] at h
        injection h with h1
        injection h1 with hm hfq
        subst hm; subst hfq
        exact ⟨le_refl _, hf, not_lt.1 hv⟩

theorem run_sampling_calls_mono {α : Type} (val : α → ℚ) (envBase : ℚ)
    (hB : 0 < envBase) (inputs : List (ℕ × List (α × ℚ))) :
    ∀ factor : ℚ, 0 < factor →
      0 < run_sampling_calls val envBase inputs factor ∧
      factor ≤ run_sampling_calls val envBase inputs factor := by
  induction inputs with
  | nil => intro factor hf; exact ⟨hf, le_refl _⟩
  | cons inp rest ih =>
    intro factor hf
    have hstep :
        run_sampling_calls val envBase (inp :: rest) factor =
          run_sampling_calls val envBase rest
            (match sample_loop val envBase inp.1 factor inp.2 with
             | some (_, fNew) => fNew
             | none => factor) := rfl
    cases hs : sample_loop val envBase inp.1 factor inp.2 with
    | none =>
      rw [hstep, hs]
      exact ih factor hf
    | some p =>
      obtain ⟨m, fNew⟩ := p
      have hspec := sample_loop_spec val envBase hB inp.1 factor hf inp.2 m
        fNew hs
      rw [hstep, hs]
      have := ih fNew hspec.2.1
      exact ⟨this.1, le_trans hspec.1 this.2⟩

/-- C7: in the rejection-sampling loops of `sample_resonance_mass` and
`sample_resonance_masses`, whenever sampling returns, the final persistent
scale factor (`max_factor1_` resp. `max_factor2_`) is at least the one the
call started from — it is touched only in the overshoot branch, where it is
multiplied by `val / max`, a ratio exceeding 1 there — and the returned
proposal's accepted unnormalized value does not exceed the envelope maximum
`envBase * factor` in force at return; consequently the factor never
decreases across any sequence of sampling calls. -/
theorem C7_envelope_monotone {α : Type} (val : α → ℚ) (envBase factor : ℚ)
    (hB : 0 < envBase) (hf : 0 < factor) :
    (∀ fuel draws m fFinal,
        sample_loop val envBase fuel factor draws = some (m, fFinal) →
        factor ≤ fFinal ∧ val m ≤ envBase * fFinal) ∧
    (∀ inputs, factor ≤ run_sampling_calls val envBase inputs factor) := by
  constructor
  · intro fuel draws m fFinal h
    have hspec := sample_loop_spec val envBase hB fuel factor hf draws m
      fFinal h
    exact ⟨hspec.1, hspec.2.2⟩
  · intro inputs
    exact (run_sampling_calls_mono val envBase hB inputs factor hf).2

attribute [local semireducible] Rat.add Rat.mul Rat.sub Rat.inv in
theorem C7_witness :
    sample_loop (fun q : ℚ => q) 1 2 1 [(2, 1 / 2), (3 / 2, 1 / 2)] =
      some (3 / 2, 2) ∧
    (1 : ℚ) ≤ 2 ∧ (3 : ℚ) / 2 ≤ 1 * 2 ∧
    (1 : ℚ) ≤ run_sampling_calls (fun q : ℚ => q) 1
      [(2, [(2, 1 / 2), (3 / 2, 1 / 2)])] 1 := by
  have heq : sample_loop (fun q : ℚ => q) 1 2 1 [(2, 1 / 2), (3 / 2, 1 / 2)] =
      some (3 / 2, 2) := by decide
  have h := C7_envelope_monotone (fun q : ℚ => q) 1 1 (by norm_num)
    (by norm_num)
  have h1 := h.1 2 [(2, 1 / 2), (3 / 2, 1 / 2)] (3 / 2) 2 heq
  exact ⟨heq, h1.1, h1.2, h.2 [(2, [(2, 1 / 2), (3 / 2, 1 / 2)])]⟩

theorem foldl_min_le_init (branches : List WidthBranch) :
    ∀ a : ℚ, branches.foldl (fun acc x => min acc x.thr) a ≤ a := by
  induction branches with
  | nil => intro a; exact le_refl a
  | cons c rest ih =>
    intro a
    exact le_trans (ih (min a c.thr)) (min_le_left a c.thr)

theorem foldl_min_le_thr (branches : List WidthBranch) :
    ∀ (a : ℚ) (b : WidthBranch), b ∈ branches →
      branches.foldl (fun acc x => min acc x.thr) a ≤ b.thr := by
  induction branches with
  | nil => intro a b hb; exact absurd hb (List.not_mem_nil b)
  | cons c rest ih =>
    intro a b hb
    rcases List.mem_cons.1 hb with rfl | hb
    · exact le_trans (foldl_min_le_init rest (min a b.thr))
        (min_le_right a b.thr)
    · exact ih (min a c.thr) b hb

theorem total_width_eq_zero_below_kinematic (sp : SpectralSpecies) (m : ℚ)
    (hm : m < min_mass_kinematic sp) : total_width sp m = 0 := by
  unfold total_width
  by_cases hst : sp.stable
  · rw [if_pos hst]
  · rw [if_neg hst]
    unfold min_mass_kinematic at hm
    rw [if_neg hst] at hm
    have hall : ∀ b ∈ sp.branches, branch_width b m = 0 := by
      intro b hb
      have hthr : m < b.thr :=
        lt_of_lt_of_le hm (foldl_min_le_thr sp.branches sp.mass b hb)
      unfold branch_width
      rw [if_pos hthr]
    have hsum : (sp.branches.map (fun b => branch_width b m)).sum = 0 := by
      apply List.sum_eq_zero
      intro x hx
      rcases List.mem_map.1 hx with ⟨b, hb, rfl⟩
      exact hall b hb
    rw [hsum, if_pos (by norm_num [width_cutoff])]

/-- C3 (amended): the normalized spectral function is non-negative
everywhere (its normalization factor is the reciprocal of the integral of
a non-negative function), and it vanishes exactly for every mass strictly
below `min_mass_kinematic` — there every partial width is below threshold,
so the total width is zero and the Breit-Wigner branch is never reached.
Below `min_mass_spectral` but at or above `min_mass_kinematic` the value
need only be negligible (below `really_small` at the probed points), not
exactly zero. -/
theorem C3_spectral_nonneg_and_zero_below_kinematic (sp : SpectralSpecies)
    (hn : 0 ≤ sp.normFactor) (m : ℚ) :
    0 ≤ spectral_function sp m ∧
    (m < min_mass_kinematic sp → spectral_function sp m = 0) := by
  constructor
  · unfold spectral_function spectral_function_no_norm
    by_cases hw : total_width sp m < width_cutoff
    · rw [if_pos hw, mul_zero]
    · rw [if_neg hw]
      have hwpos : 0 < total_width sp m :=
        lt_of_lt_of_le (by norm_num [width_cutoff]) (not_lt.1 hw)
      apply mul_nonneg hn
      unfold breit_wigner
      apply div_nonneg
      · exact mul_nonneg (sq_nonneg m) (le_of_lt hwpos)
      · exact add_nonneg (sq_nonneg _)
          (mul_nonneg (sq_nonneg m) (sq_nonneg _))
  · intro hm
    unfold spectral_function spectral_function_no_norm
    rw [total_width_eq_zero_below_kinematic sp m hm,
      if_pos (by norm_num [width_cutoff]), mul_zero]

attribute [local semireducible] Rat.add Rat.mul Rat.sub Rat.inv in
theorem C3_witness :
    (0 : ℚ) ≤ sp0.normFactor ∧
    0 ≤ spectral_function sp0 (1 / 2) ∧
    ((1 : ℚ) / 2 < min_mass_kinematic sp0 → spectral_function sp0 (1 / 2) = 0) :=
  ⟨by decide,
   (C3_spectral_nonneg_and_zero_below_kinematic sp0 (by decide) (1 / 2)).1,
   (C3_spectral_nonneg_and_zero_below_kinematic sp0 (by decide) (1 / 2)).2⟩

attribute [local semireducible] Rat.add Rat.mul Rat.sub Rat.inv in
/-- C3 counterexample: for the species `sp0` (pole mass 3, one decay branch
with threshold 1 whose width starts at exactly `width_cutoff`), the
bracketing-plus-bisection result `min_mass_spectral` is 164711/163840 > 1,
yet the spectral function at mass 1 — strictly below it — is
100000/640000000001, which is positive (merely below `really_small`), and
not exactly 0 as the claim asserts. -/
theorem C3_counterexample :
    min_mass_spectral sp0 40 = some (164711 / 163840) ∧
    (1 : ℚ) < 164711 / 163840 ∧
    spectral_function sp0 1 = 100000 / 640000000001 ∧
    spectral_function sp0 1 ≠ 0 := by
  constructor
  · decide
  · refine ⟨by norm_num, ?_, ?_⟩
    · decide
    · decide

end Smash
